import Mathlib

/-!
# Verification of the OCR stat-extraction pipeline

A shallow embedding, in Lean 4, of the algorithmic core of a Discord bot
that extracts player statistics from game-result screenshots:

* `src/ocr_processing.py` — `clean_ocr_result`, `process_for_ocr`;
* `src/database.py` — `normalize_name`, `find_best_match`;
* `src/bot.py` — `clean_for_match` and the name-resolution / record-count
  logic of the `extract` command;
* `src/boundary_drawing.py` — `adjust_region`, `define_regions`.

Python strings are modelled as Lean `String` (a list of `Char`), with the
ASCII semantics of the character classes used by the regexes of the code.
Python `int` values arising here are parsed from digit-only strings and are
modelled as `Nat`/`Int`.  Python `float` score and accuracy values are
modelled as exact non-negative fractions (`Frac` below): every float in the
pipeline is obtained from non-negative integer data by division, so an
exact-rational model is faithful up to IEEE rounding, which is noted where
it matters.

The external fuzzy-scoring library (rapidfuzz) is not part of this
repository; its two scorers are modelled from the description in the spec
(a partial/substring-tolerant ratio and a token-order-tolerant ratio,
documented at their definitions).
-/

namespace HellOCR

/-! ## Character classes (ASCII semantics of the regexes used by the code) -/

/-- Model of `[a-z0-9]` — the characters kept by `re.sub(r"[^a-z0-9]", "", ...)`. -/
def isLowerAlnum (c : Char) : Bool :=
  (97 ≤ c.toNat && c.toNat ≤ 122) || (48 ≤ c.toNat && c.toNat ≤ 57)

/-- Model of `\d` (ASCII): `[0-9]`. -/
def isDigitB (c : Char) : Bool :=
  48 ≤ c.toNat && c.toNat ≤ 57

/-- Model of `[A-Za-z0-9]` — the class of the Python class `[A-Za-z0-9]` (ASCII). -/
def isAlnumB (c : Char) : Bool :=
  (65 ≤ c.toNat && c.toNat ≤ 90) || (97 ≤ c.toNat && c.toNat ≤ 122) ||
    (48 ≤ c.toNat && c.toNat ≤ 57)

/-- Model of `[A-Z]` (ASCII). -/
def isUpperB (c : Char) : Bool :=
  65 ≤ c.toNat && c.toNat ≤ 90

/-- Python `\s` / `str.strip()` whitespace (ASCII part): space, `\t`, `\n`,
`\r`, `\x0b`, `\x0c`. -/
def pyIsSpace (c : Char) : Bool :=
  c.toNat == 32 || c.toNat == 9 || c.toNat == 10 || c.toNat == 13 ||
    c.toNat == 11 || c.toNat == 12

/-- Python `str.lower` on one character (ASCII semantics). -/
def pyLowerChar (c : Char) : Char :=
  if 65 ≤ c.toNat && c.toNat ≤ 90 then Char.ofNat (c.toNat + 32) else c

/-- Python `str.lower` (ASCII semantics). -/
def pyLower (l : List Char) : List Char := l.map pyLowerChar

/-- Python `str.strip()` on a character list. -/
def pyStripL (l : List Char) : List Char :=
  ((l.dropWhile pyIsSpace).reverse.dropWhile pyIsSpace).reverse

/-- Python `str.strip()`. -/
def pyStrip (s : String) : String := ⟨pyStripL s.data⟩

/-! ## `normalize_name` (src/database.py lines 25–40) -/

/-- Helper for `re.sub(r"<.*?>", "", name)`: given the characters after a
`'<'`, find the matching (nearest) `'>'` and return what follows it.
`.` does not match a newline, so the scan fails upon `'\n'`. -/
def splitClose : List Char → Option (List Char)
  | [] => none
  | c :: r => if c = '>' then some r
              else if c = '\n' then none
              else splitClose r

/-- Model of `re.sub(r"<.*?>", "", name)`: repeatedly delete the leftmost
non-greedy `<...>` group (no newline inside).  Implemented with explicit
fuel (the list length bounds the number of steps) so that the function is
structurally recursive and kernel-reducible. -/
def removeAngleF : ℕ → List Char → List Char
  | 0, l => l
  | _ + 1, [] => []
  | fuel + 1, c :: rest =>
    if c = '<' then
      match splitClose rest with
      | some r' => removeAngleF fuel r'
      | none => c :: removeAngleF fuel rest
    else c :: removeAngleF fuel rest

def removeAngle (l : List Char) : List Char := removeAngleF l.length l

/-- Model of `[\d_]` — the class stripped from both ends by
`re.sub(r"^[\d_]+|[\d_]+$", "", name)`. -/
def isDigUnd (c : Char) : Bool := isDigitB c || c == '_'

/-- Model of `re.sub(r"^[\d_]+|[\d_]+$", "", name)`: drop the leading and the
trailing run of digits/underscores. -/
def stripEdge (p : Char → Bool) (l : List Char) : List Char :=
  ((l.dropWhile p).reverse.dropWhile p).reverse

/-- Model of `normalize_name` (src/database.py lines 25–40): lowercase, remove
`<...>` groups, strip leading/trailing digit/underscore runs, then keep
only `[a-z0-9]`. -/
def normalize_name (s : String) : String :=
  ⟨(stripEdge isDigUnd (removeAngle (pyLower s.data))).filter isLowerAlnum⟩

/-! ## `clean_for_match` (src/bot.py lines 72–81) -/

/-- Model of `re.sub(r"^(mr|ms|mrs|dr)", "", name)`.  The regex alternation is
tried left to right, so `mr` always matches before `mrs` can (the `mrs`
alternative is dead); at most one leading occurrence is removed because
the pattern is anchored at the start. -/
def stripTitle (l : List Char) : List Char :=
  if l.take 2 = ['m', 'r'] then l.drop 2
  else if l.take 2 = ['m', 's'] then l.drop 2
  else if l.take 3 = ['m', 'r', 's'] then l.drop 3  -- dead branch, kept for fidelity
  else if l.take 2 = ['d', 'r'] then l.drop 2
  else l

/-- Model of `clean_for_match` (src/bot.py lines 72–81): on falsy input return `""`;
otherwise lowercase, remove all non-`[a-z0-9]`, then strip a leading
title.  Modelled on `String`; the `if not name` guard is the `""` case. -/
def clean_for_match (s : String) : String :=
  ⟨stripTitle ((pyLower s.data).filter isLowerAlnum)⟩

/-- The function `clean_for_match` applied to an `Optional[str]` (the `extract` path
passes `clean_ocr_result(...)`, which may be `None`; `clean_for_match`
maps falsy input to `""`). -/
def clean_for_match_opt : Option String → String
  | none => ""
  | some s => clean_for_match s

/-! ## Exact non-negative fractions

Score and accuracy values are Python floats, but every one of them is
obtained from non-negative integers by `+`, `*`, `/`, `max`, `min`,
so we model them as exact fractions with `Nat` numerator/denominator
(all constructed denominators are positive) and compare by
cross-multiplication. -/

structure Frac where
  num : ℕ
  den : ℕ
deriving DecidableEq, Repr

/-- Model of `a ≤ b` as fractions (faithful when both denominators are positive). -/
def Frac.fle (a b : Frac) : Bool := a.num * b.den ≤ b.num * a.den

/-- Model of `a < b` as fractions (faithful when both denominators are positive). -/
def Frac.flt (a b : Frac) : Bool := a.num * b.den < b.num * a.den

/-- The rational value of a `Frac`. -/
def Frac.val (a : Frac) : ℚ := (a.num : ℚ) / a.den

/-- The score `100.0` returned for exact matches. -/
def score100 : Frac := ⟨100, 1⟩

/-! ## Fuzzy scorers

`find_best_match` calls `rapidfuzz.fuzz.partial_ratio` and
`rapidfuzz.fuzz.token_sort_ratio`.  rapidfuzz is an external library, not
part of this repository, so the two scorers are modelled from the spec
(§4.5 step 5: "a partial/substring-tolerant ratio and a
token-order-tolerant ratio") and the documented semantics of the library:

* `fuzz.ratio a b` is the normalized indel similarity
  `100 * 2 * lcs(a,b) / (|a| + |b|)` (and `100` for two empty strings);
* `fuzz.partial_ratio a b` is `fuzz.ratio` at the optimal alignment of the
  shorter string inside the longer: the maximum of `fuzz.ratio shorter w`
  over contiguous substrings `w` of the longer (for equal lengths both
  orientations are tried);
* `fuzz.token_sort_ratio a b` is `fuzz.ratio` of the two strings with
  their whitespace-separated tokens sorted and re-joined by single
  spaces. -/

/-- One row update of the longest-common-subsequence DP.
`prev` is the previous row (length `a.length + 1`); the result is the row
after consuming character `cb` of the second string. -/
def lcsRowStep (cb : Char) : List Char → List ℕ → ℕ → ℕ → List ℕ
  | [], _, _, _ => []
  | ai :: as, pv :: pvs, diag, left =>
    let cur := if ai = cb then diag + 1 else max left pv
    cur :: lcsRowStep cb as pvs pv cur
  | _ :: _, [], _, _ => []

def lcsNextRow (a : List Char) (prev : List ℕ) (cb : Char) : List ℕ :=
  match prev with
  | [] => [0]
  | p0 :: ps => 0 :: lcsRowStep cb a ps p0 0

/-- Length of a longest common subsequence. -/
def lcs (a b : List Char) : ℕ :=
  (b.foldl (lcsNextRow a) (List.replicate (a.length + 1) 0)).getLastD 0

/-- Model of `fuzz.ratio` (normalized indel similarity), as an exact fraction. -/
def indelScore (a b : List Char) : Frac :=
  if a.length + b.length = 0 then ⟨100, 1⟩
  else ⟨200 * lcs a b, a.length + b.length⟩

/-- All contiguous substrings of `l` (with repetitions; only the maximum
of a score over them is used). -/
def windowsOf (l : List Char) : List (List Char) :=
  (List.range (l.length + 1)).flatMap fun i =>
    (List.range (l.length - i + 1)).map fun n => (l.drop i).take n

def fracMaxOver (l : List (List Char)) (f : List Char → Frac) : Frac :=
  l.foldl (fun acc w => if acc.flt (f w) then f w else acc) ⟨0, 1⟩

/-- Best `fuzz.ratio` of `shorter` against any contiguous substring of
`longer`. -/
def bestWindowScore (shorter longer : List Char) : Frac :=
  fracMaxOver (windowsOf longer) (indelScore shorter)

/-- Model of `rapidfuzz.fuzz.partial_ratio` (see section comment). -/
def fuzzWindowScore (a b : List Char) : Frac :=
  if a.length < b.length then bestWindowScore a b
  else if b.length < a.length then bestWindowScore b a
  else if (bestWindowScore a b).flt (bestWindowScore b a) then bestWindowScore b a
  else bestWindowScore a b

/-- Python `str.split()` — split on whitespace runs, no empty tokens.
Structurally recursive on explicit fuel (the list length bounds the number
of tokens). -/
def pySplitW : ℕ → List Char → List (List Char)
  | 0, _ => []
  | _ + 1, [] => []
  | fuel + 1, l =>
    let l' := l.dropWhile pyIsSpace
    match l' with
    | [] => []
    | _ :: _ =>
      l'.takeWhile (fun c => !pyIsSpace c) ::
        pySplitW fuel (l'.dropWhile (fun c => !pyIsSpace c))

def pyTokens (l : List Char) : List (List Char) := pySplitW (l.length + 1) l

/-- Insertion sort by `List Char` lexicographic order (Python `sorted`). -/
def insertSorted (x : List Char) : List (List Char) → List (List Char)
  | [] => [x]
  | y :: ys => if (⟨x⟩ : String) < ⟨y⟩ then x :: y :: ys else y :: insertSorted x ys

def sortTokens (ts : List (List Char)) : List (List Char) :=
  ts.foldr insertSorted []

/-- Model of the Python `" ".join(tokens)`. -/
def joinSpace : List (List Char) → List Char
  | [] => []
  | [t] => t
  | t :: ts => t ++ ' ' :: joinSpace ts

/-- Model of `rapidfuzz.fuzz.token_sort_ratio` (see section comment). -/
def fuzzTokenScore (a b : List Char) : Frac :=
  indelScore (joinSpace (sortTokens (pyTokens a))) (joinSpace (sortTokens (pyTokens b)))

/-- Model of `max_score = max(pr_score, ts_score)` (src/database.py lines 140–142). -/
def fuzz_max (a b : String) : Frac :=
  if (fuzzWindowScore a.data b.data).flt (fuzzTokenScore a.data b.data)
  then fuzzTokenScore a.data b.data
  else fuzzWindowScore a.data b.data

/-! ## `find_best_match` (src/database.py lines 100–152) -/

/-- One update of a Python dict used as an association list: if the key is
present, overwrite the value in place (keys keep first-insertion order);
otherwise append the binding. -/
def insertNorm : List (String × String) → String → String → List (String × String)
  | [], k, v => [(k, v)]
  | (k₀, v₀) :: rest, k, v =>
    if k₀ = k then (k₀, v) :: rest else (k₀, v₀) :: insertNorm rest k v

/-- Model of `norm_name_map = {normalize_name(n): n for n in registered_names}` —
a Python dict comprehension: keys in first-insertion order, later values
overwrite earlier ones. -/
def normMap (names : List String) : List (String × String) :=
  names.foldl (fun m n => insertNorm m (normalize_name n) n) []

/-- Dict lookup (the key is always present where the code uses it). -/
def lookupVal : List (String × String) → String → Option String
  | [], _ => none
  | (k₀, v₀) :: rest, k => if k₀ = k then some v₀ else lookupVal rest k

/-- The `abs_len_diff <= 3 and 0.75 <= length_ratio <= 1.25` filter
(src/database.py lines 119–124).  For an empty normalized candidate the
code sets `length_ratio = 1.0`, which passes; for `c > 0`,
`0.75 ≤ n/c ≤ 1.25` is encoded by cross-multiplication as
`3c ≤ 4n ∧ 4n ≤ 5c`. -/
def lenFilter (cand : String) (n : String) : Bool :=
  ((n.length : ℤ) - cand.length).natAbs ≤ 3 &&
    (cand.length == 0 ||
      (3 * cand.length ≤ 4 * n.length && 4 * n.length ≤ 5 * cand.length))

/-- The filtered list `norm_db_names` of normalized registry names. -/
def filteredKeys (ocrName : String) (names : List String) : List String :=
  ((normMap names).map Prod.fst).filter
    (lenFilter (normalize_name (pyStrip ocrName)))

/-- The `matches` list of the fuzzy branch: every surviving normalized
name scored with `max(partial_ratio, token_sort_ratio)`, kept when the
score reaches the threshold, and mapped back through `norm_name_map`
(src/database.py lines 137–145). -/
def fuzzyPool (ocrName : String) (names : List String) (threshold : ℕ) :
    List (String × Frac) :=
  let candNorm := normalize_name (pyStrip ocrName)
  (((filteredKeys ocrName names).map fun n => (n, fuzz_max candNorm n)).filter
      (fun p => Frac.fle ⟨threshold, 1⟩ p.2)).filterMap
    fun p => (lookupVal (normMap names) p.1).map fun v => (v, p.2)

/-- Model of `matches.sort(key=lambda x: -x[1]); matches[0]`: The Python sort used here is
stable, so the first element of the descending-sorted list is the first
element attaining the maximal score.  Modelled directly as that first
maximum. -/
def firstMax : List (String × Frac) → Option (String × Frac)
  | [] => none
  | x :: xs =>
    match firstMax xs with
    | none => some x
    | some y => if Frac.flt x.2 y.2 then some y else some x

/-- Model of `find_best_match` (src/database.py lines 100–152).  Returns
`(matched original name, score)` or `none` (the Python `(None, None)`).
`threshold` and `min_len` are the integer parameters (defaults 80 and 3;
the call sites pass `MATCH_SCORE_THRESHOLD`, default 50). -/
def find_best_match (ocrName : String) (names : List String)
    (threshold : ℕ) (minLen : ℕ) : Option (String × Frac) :=
  if ocrName = "" ∨ names = [] then none   -- `if not ocr_name or not registered_names`
  else
    match (filteredKeys ocrName names).find?
        (fun n => n == normalize_name (pyStrip ocrName)) with
    | some n => (lookupVal (normMap names) n).map (fun v => (v, score100))
    | none =>
      if (normalize_name (pyStrip ocrName)).length < minLen then none
      else firstMax (fuzzyPool ocrName names threshold)

/-! ## `clean_ocr_result` (src/ocr_processing.py lines 63–90) -/

/-- The field labels of one player column (the `label` argument of
`clean_ocr_result` / the `key` loop of `process_for_ocr`). -/
inductive FieldKind where
  | name | kills | shotsFired | shotsHit | deaths | accuracy | meleeKills
deriving DecidableEq, Repr

/-- The `misreads` table, in its Python-dict insertion order; the
replacements are applied sequentially by `str.replace` (src lines 71–76). -/
def misreads : List (Char × Char) :=
  [('2', 'Z'), ('3', 'E'), ('4', 'A'), ('5', 'S'), ('6', 'G'), ('7', 'T'),
   ('8', 'B'), ('9', 'G'), ('|', 'I'), ('@', 'A'), ('$', 'S'), ('&', 'E'),
   ('!', 'I'), ('£', 'E'), ('€', 'E')]

def applyMisreads (l : List Char) : List Char :=
  misreads.foldl (fun t p => t.map fun c => if c = p.1 then p.2 else c) l

/-- Model of `re.sub(r"([A-Za-z0-9])([A-Z])$", r"\1", text)`: if the text ends in
an alphanumeric character followed by an uppercase letter, drop that
final uppercase letter (at most one match is possible). -/
def dropTrailingUpper (l : List Char) : List Char :=
  match l.reverse with
  | last :: pre :: _ =>
    if isUpperB last && isAlnumB pre then l.dropLast else l
  | _ => l

/-- Model of `re.sub(r"\s+", " ", text)`: collapse each whitespace run to one
space.  Fuel-based structural recursion (length bounds the steps). -/
def collapseWsF : ℕ → List Char → List Char
  | 0, l => l
  | _ + 1, [] => []
  | fuel + 1, c :: rest =>
    if pyIsSpace c then ' ' :: collapseWsF fuel (rest.dropWhile pyIsSpace)
    else c :: collapseWsF fuel rest

def collapseWs (l : List Char) : List Char := collapseWsF l.length l

/-- Model of `re.sub(r"[^A-Za-z0-9\s]", " ", text)`: remaining junk characters are
replaced by spaces (not removed). -/
def junkToSpace (l : List Char) : List Char :=
  l.map fun c => if isAlnumB c || pyIsSpace c then c else ' '

/-- Model of `clean_ocr_result` (src/ocr_processing.py lines 63–90).  `none` models
the Python `None` returns (falsy input, or empty after cleaning). -/
def clean_ocr_result (text : String) (label : FieldKind) : Option String :=
  if text = "" then none
  else
    let t : List Char :=
      match label with
      | .name =>
        junkToSpace (pyStripL (collapseWs (dropTrailingUpper
          ((applyMisreads text.data).map fun c => if c = '_' then ' ' else c))))
      | .accuracy => text.data.filter fun c => isDigitB c || c = '.' || c = '%'
      | _ => text.data.filter isDigitB
    if t = [] then none else some ⟨t⟩

/-! ## `process_for_ocr` (src/ocr_processing.py lines 92–225)

The imaging side (`regions`, `image[y1:y2, x1:x2]`, `perform_ocr`) is
external input/output: `perform_ocr` calls the OCR engine and returns the
first non-empty recognized text or `None`.  One player column is therefore
modelled as the per-field outcome of `perform_ocr`: `none` covers both “no
region with this label” and “OCR produced no text”. -/

structure RawPlayer where
  name : Option String
  kills : Option String
  shots_fired : Option String
  shots_hit : Option String
  deaths : Option String
  accuracy : Option String
  melee_kills : Option String
deriving DecidableEq, Repr

/-- The record assembled for one player (the `formatted_player` dict with
its standardized keys).  `Kills`/`Deaths` stay strings (either the cleaned
OCR digits or the failure placeholder `"0"`); `Shots Fired`, `Shots Hit`
and `Melee Kills` are coerced to `int`; `Accuracy` is the formatted
string. -/
structure PlayerRecord where
  player_name : String
  kills : String
  deaths : String
  shots_fired : ℤ
  shots_hit : ℤ
  accuracy : String
  melee_kills : ℤ
deriving DecidableEq, Repr

/-- Python `int(s)` on the cleaned numeric strings (all-digit,
non-empty); other shapes raise `ValueError` (modelled by `none`). -/
def parsePyNat (s : String) : Option ℕ :=
  if s.data ≠ [] ∧ s.data.all isDigitB then
    some (s.data.foldl (fun a c => 10 * a + (c.toNat - 48)) 0)
  else none

/-- Model of `float(numeric_part)` where `numeric_part` contains only digits and
dots: valid iff there is at least one digit and at most one dot.
Exact-rational model of the float value. -/
def parsePyFrac (s : String) : Option Frac :=
  let cs := s.data
  if (cs.all fun c => isDigitB c || c = '.') ∧ cs.any isDigitB ∧
      (cs.filter (· = '.')).length ≤ 1 then
    let intPart := cs.takeWhile (· ≠ '.')
    let fracPart := (cs.dropWhile (· ≠ '.')).drop 1
    some ⟨(intPart ++ fracPart).foldl (fun a c => 10 * a + (c.toNat - 48)) 0,
          10 ^ fracPart.length⟩
  else none

/-- Model of `cleaned_result.rstrip("%")` followed by `re.sub(r"[^0-9.]", "", ·)`
(src/ocr_processing.py line 159). -/
def accNumericPart (s : String) : String :=
  ⟨((s.data.reverse.dropWhile (· = '%')).reverse).filter
      fun c => isDigitB c || c = '.'⟩

/-- The cleaned OCR outcome for one field: `none` when the region was
missing, OCR failed, or cleaning emptied the text (all of which store the
placeholder `"0"` in `player_stats`). -/
def fieldCleaned (raw : Option String) (k : FieldKind) : Option String :=
  raw.bind (clean_ocr_result · k)

/-- The local `shots_fired` value (0 on any failure, else `int(cleaned)`). -/
def shotsFiredVal (p : RawPlayer) : ℕ :=
  match fieldCleaned p.shots_fired .shotsFired with
  | some c => (parsePyNat c).getD 0
  | none => 0

/-- The local `shots_hit` value before reconciliation. -/
def shotsHitVal (p : RawPlayer) : ℕ :=
  match fieldCleaned p.shots_hit .shotsHit with
  | some c => (parsePyNat c).getD 0
  | none => 0

/-- Model of `if shots_hit > shots_fired: shots_hit = shots_fired` (lines 174–180). -/
def shotsHitClamped (p : RawPlayer) : ℕ :=
  if shotsFiredVal p < shotsHitVal p then shotsFiredVal p else shotsHitVal p

/-- The parsed `ocr_accuracy` (lines 157–165): `None` unless the cleaned
accuracy text yields digits, in which case `float` of the digits/dots. -/
def ocrAccuracyVal (p : RawPlayer) : Option Frac :=
  (fieldCleaned p.accuracy .accuracy).bind fun c => parsePyFrac (accNumericPart c)

/-- The final accuracy value (lines 182–187): trust an in-range OCR value,
else derive `(shots_hit / shots_fired) * 100` capped at 100 (0 when no
shots fired). -/
def accuracyVal (p : RawPlayer) : Frac :=
  let derived : Frac :=
    if 0 < shotsFiredVal p then
      let d : Frac := ⟨shotsHitClamped p * 100, shotsFiredVal p⟩
      if d.fle ⟨100, 1⟩ then d else ⟨100, 1⟩
    else ⟨0, 1⟩
  match ocrAccuracyVal p with
  | some a => if Frac.fle ⟨0, 1⟩ a && a.fle ⟨100, 1⟩ then a else derived
  | none => derived

/-- Decimal digit character for `n < 10`. -/
def digitChar : ℕ → Char
  | 0 => '0' | 1 => '1' | 2 => '2' | 3 => '3' | 4 => '4'
  | 5 => '5' | 6 => '6' | 7 => '7' | 8 => '8' | _ => '9'

/-- Decimal digits of `n`, most significant first; fuel-based structural
recursion (`n < fuel` suffices, and `digits (n / 10)` needs one less). -/
def natDigitsF : ℕ → ℕ → List Char
  | 0, _ => []
  | fuel + 1, n =>
    if n < 10 then [digitChar n]
    else natDigitsF fuel (n / 10) ++ [digitChar (n % 10)]

def natRepr (n : ℕ) : List Char := natDigitsF (n + 1) n

/-- Round-half-even of `10 · f` to an integer (the Python `f"{x:.1f}"`
rounding of the non-negative accuracy value; the exact-rational rounding
stands in for IEEE-double rounding). -/
def tenthsOf (f : Frac) : ℕ :=
  let t := 10 * f.num
  let q := t / f.den
  let r := t % f.den
  if 2 * r < f.den then q
  else if f.den < 2 * r then q + 1
  else if q % 2 = 0 then q else q + 1

/-- Model of `f"{accuracy:.1f}%"` for the (non-negative) accuracy value. -/
def formatAccuracy (f : Frac) : String :=
  let n := tenthsOf f
  ⟨natRepr (n / 10) ++ '.' :: digitChar (n % 10) :: ['%']⟩

/-- The value stored in `player_stats` for Shots Fired: `"0"` on failure,
and nothing at all on success — the parsed value goes only into the local
variable `shots_fired` (src/ocr_processing.py lines 147–151 store no
`player_stats` entry in the success case). -/
def statsShotsFired (p : RawPlayer) : Option String :=
  match fieldCleaned p.shots_fired .shotsFired with
  | some _ => none
  | none => some "0"

def statsShotsHit (p : RawPlayer) : Option String :=
  match fieldCleaned p.shots_hit .shotsHit with
  | some _ => none
  | none => some "0"

/-- Model of `int(formatted_player.get("Shots Fired", 0))` (line 203): the entry is
present only when OCR failed (then it is `"0"`); otherwise the default 0
is used, because the successfully parsed value was never stored. -/
def finalShotsFired (p : RawPlayer) : ℤ :=
  match statsShotsFired p with
  | some s => ((parsePyNat s).getD 0 : ℕ)
  | none => 0

def finalShotsHit (p : RawPlayer) : ℤ :=
  match statsShotsHit p with
  | some s => ((parsePyNat s).getD 0 : ℕ)
  | none => 0

/-- Model of `Melee Kills`: stored as `int(cleaned)` on success and `"0"` on
failure; line 211 then coerces either to `int`. -/
def finalMeleeKills (p : RawPlayer) : ℤ :=
  match fieldCleaned p.melee_kills .meleeKills with
  | some c => ((parsePyNat c).getD 0 : ℕ)
  | none => 0

/-- The `formatted_player` dict assembled for one player column
(src/ocr_processing.py lines 189–215). -/
def buildRecord (p : RawPlayer) : PlayerRecord where
  player_name := (fieldCleaned p.name .name).getD "0"
  kills := (fieldCleaned p.kills .kills).getD "0"
  deaths := (fieldCleaned p.deaths .deaths).getD "0"
  shots_fired := finalShotsFired p
  shots_hit := finalShotsHit p
  accuracy := formatAccuracy (accuracyVal p)
  melee_kills := finalMeleeKills p

/-- Python `str.lower` on a `String`. -/
def pyLowerStr (s : String) : String := ⟨pyLower s.data⟩

/-- The junk-name guard (lines 217–223): keep the column only if
`player_name.strip().lower()` is not blank, `"0"`, `"."` or `"a"`. -/
def processPlayer (p : RawPlayer) : Option PlayerRecord :=
  let r := buildRecord p
  let nameCheck := pyLowerStr (pyStrip r.player_name)
  if nameCheck = "" ∨ nameCheck = "0" ∨ nameCheck = "." ∨ nameCheck = "a"
  then none else some r

/-- Model of `process_for_ocr` over the player columns present in the image
(the region-dict bookkeeping that merely determines how many columns are
iterated is external input and is modelled by the list itself). -/
def process_for_ocr (ps : List RawPlayer) : List PlayerRecord :=
  ps.filterMap processPlayer

/-! ## The `/extract` pipeline tail (src/bot.py lines 469–529)

After `process_for_ocr`, the command filters junk names, resolves each
surviving name against the registry, filters unresolved records, and
reports an explicit failure whenever fewer than 2 records remain at
either checkpoint; only with 2 or more resolved records does it proceed
to build the confirmation embed.  The registry is modelled by its list of
`player_name` strings (the `db_names` list the code extracts from the
user documents). -/

/-- One name resolution (src/bot.py lines 483–517): clean the OCR name,
`clean_for_match` both sides, `find_best_match` on the cleaned names, and
on success map the matched cleaned name back to the first registry entry
with that cleaned form (`db_names_clean.index`).  Returns the resolved
registry name, or `none` (the code then nulls the name of the record). -/
def resolve_name (name : String) (dbNames : List String) (threshold : ℕ) :
    Option String :=
  if name = "" then none    -- `if ocr_name:` else-branch
  else
    match find_best_match (clean_for_match_opt (clean_ocr_result name .name))
        (dbNames.map clean_for_match) threshold 3 with
    | some (m, s) =>
      -- `if best_match_cleaned and match_score is not None and match_score >= MATCH_SCORE_THRESHOLD`
      if m ≠ "" ∧ Frac.fle ⟨threshold, 1⟩ s then
        some (dbNames.getD ((dbNames.map clean_for_match).indexOf m) "")
      else none
    | none => none

/-- The junk filter re-applied by `extract` (lines 470–473; unlike the one
inside `process_for_ocr`, it does not lowercase). -/
def junkFilter (players : List PlayerRecord) : List PlayerRecord :=
  players.filter fun p =>
    p.player_name ≠ "" ∧
      pyStrip p.player_name ≠ "" ∧ pyStrip p.player_name ≠ "0" ∧
      pyStrip p.player_name ≠ "." ∧ pyStrip p.player_name ≠ "a"

/-- Records with their resolution outcome attached, keeping only those
whose resolved name is truthy (lines 480–520). -/
def resolveAll (players : List PlayerRecord) (dbNames : List String)
    (threshold : ℕ) : List (PlayerRecord × String) :=
  (players.map fun p => (p, resolve_name p.player_name dbNames threshold)).filterMap
    fun q => match q.2 with
      | some n => if n = "" then none else some (q.1, n)
      | none => none

/-- The two explicit failure messages of the `extract` tail. -/
inductive ExtractFailure where
  | tooFewValidNames    -- "At least 2 players with valid names must be present…"
  | tooFewRegistered    -- "At least 2 registered players must be detected…"
deriving DecidableEq, Repr

/-- The record-count checkpoints of `extract` (lines 469–529): junk
filter, first `< 2` failure, resolution, second `< 2` failure, else the
resolved record list proceeds to the confirmation embed. -/
def extractStage (players : List PlayerRecord) (dbNames : List String)
    (threshold : ℕ) : Except ExtractFailure (List (PlayerRecord × String)) :=
  let stage1 := junkFilter players
  if stage1.length < 2 then .error .tooFewValidNames
  else
    let stage2 := resolveAll stage1 dbNames threshold
    if stage2.length < 2 then .error .tooFewRegistered
    else .ok stage2

/-! ## `define_regions` (src/boundary_drawing.py lines 19–141) -/

/-- The base boxes of the 1280×800 layout (`KNOWN_RESOLUTIONS`). -/
def regions1280 : List (String × (ℤ × ℤ × ℤ × ℤ)) :=
  [("Name", (87, 133, 262, 152)),
   ("Kills", (229, 225, 293, 247)),
   ("Accuracy", (229, 259, 293, 278)),
   ("Shots Fired", (229, 291, 293, 311)),
   ("Shots Hit", (229, 322, 293, 346)),
   ("Deaths", (250, 352, 293, 376))]

/-- The base boxes of the 1920×1080 layout. -/
def regions1920 : List (String × (ℤ × ℤ × ℤ × ℤ)) :=
  [("Name", (130, 200, 360, 230)),
   ("Kills", (340, 338, 450, 375)),
   ("Accuracy", (340, 386, 450, 420)),
   ("Shots Fired", (340, 435, 450, 470)),
   ("Shots Hit", (340, 483, 449, 518)),
   ("Deaths", (375, 528, 450, 566))]

/-- Model of `is_close_enough` with `TOLERANCE = 5`. -/
def is_close_enough (w h targetW targetH : ℕ) : Bool :=
  ((w : ℤ) - targetW).natAbs ≤ 5 && ((h : ℤ) - targetH).natAbs ≤ 5

/-- Model of `adjust_region` (src/boundary_drawing.py lines 51–75): shift
left/right by `x_off + player_index * player_offset`, never shift
top/bottom, then clamp all four coordinates to ≥ 0.  `player_offset`
comes from configuration (`PLAYER_OFFSET`, default 460) and is kept as an
arbitrary integer. -/
def adjust_region (region : ℤ × ℤ × ℤ × ℤ) (offset : ℤ × ℤ)
    (player_index : ℕ) (player_offset : ℤ) : ℤ × ℤ × ℤ × ℤ :=
  (max 0 (region.1 + offset.1 + player_index * player_offset),
   max 0 region.2.1,
   max 0 (region.2.2.1 + offset.1 + player_index * player_offset),
   max 0 region.2.2.2)

/-- Model of `int(coord * scale)` with `scale = actual / base`: the clamped
coordinate is non-negative, so the Python truncation toward zero is the
floor, modelled exactly as `⌊coord · actual / base⌋` (the code computes
it through IEEE doubles; the exact-rational floor agrees except on
double-rounding boundary cases, none of which the proved inequalities
depend on). -/
def scaleCoord (x : ℤ) (actual base : ℕ) : ℤ :=
  (x * actual) / base    -- `/` on ℤ is Euclidean division, = floor here (x ≥ 0)

def scaleBox (b : ℤ × ℤ × ℤ × ℤ) (w h baseW baseH : ℕ) : ℤ × ℤ × ℤ × ℤ :=
  (scaleCoord b.1 w baseW, scaleCoord b.2.1 h baseH,
   scaleCoord b.2.2.1 w baseW, scaleCoord b.2.2.2 h baseH)

/-- The layout selection of `define_regions`: the chosen base-box table,
player offset, base resolution, and actual (width, height) used for the
scale factors. -/
def chosenConfig (shape : Option (ℕ × ℕ)) (playerOffset1920 : ℤ) :
    List (String × (ℤ × ℤ × ℤ × ℤ)) × ℤ × ℕ × ℕ × ℕ × ℕ :=
  match shape with
  | none => (regions1920, playerOffset1920, 1920, 1080, 1920, 1080)
  | some (hh, ww) =>
    if is_close_enough ww hh 1280 800 then
      (regions1280, 305, 1280, 800, ww, hh)
    else if is_close_enough ww hh 1920 1080 then
      (regions1920, playerOffset1920, 1920, 1080, ww, hh)
    else
      (regions1920, playerOffset1920, 1920, 1080, ww, hh)

/-- Model of `define_regions` (src/boundary_drawing.py lines 77–141).
`shape = none` models the `if not image_shape` branch (base 1920×1080,
scale 1.0 — encoded by scaling with the base dimensions themselves);
otherwise `shape = some (h, w)` is the numpy shape prefix.
`numPlayers` is the configured `NUM_PLAYERS`, `playerOffset1920` the
configured `PLAYER_OFFSET` of the 1920×1080 layout (the 1280×800 layout
hardcodes offset 305). -/
def define_regions (shape : Option (ℕ × ℕ)) (numPlayers : ℕ)
    (playerOffset1920 : ℤ) : List (String × (ℤ × ℤ × ℤ × ℤ)) :=
  (List.range numPlayers).flatMap fun pi =>
    (chosenConfig shape playerOffset1920).1.map fun kv =>
      (⟨'P' :: natRepr (pi + 1) ++ ' ' :: kv.1.data⟩,
       scaleBox
         (adjust_region kv.2 (0, 0) pi (chosenConfig shape playerOffset1920).2.1)
         (chosenConfig shape playerOffset1920).2.2.2.2.1
         (chosenConfig shape playerOffset1920).2.2.2.2.2
         (chosenConfig shape playerOffset1920).2.2.1
         (chosenConfig shape playerOffset1920).2.2.2.1)

/-! ## Spec-side definitions

These follow the words of the spec rather than the source; they exist to be
compared against the source-derived definitions above. -/

/-- Modelled from the spec: the authoritative canonicalization rule of
§4.5 step 1 — "lowercase → strip bracket content → strip leading/trailing
digit/underscore runs → strip all non-alphanumeric" (the bracket-delimited
decorations are the `<...>` groups, the example in §3 being `<#000>`). -/
def authoritative_norm (s : String) : String :=
  ⟨(stripEdge isDigUnd (removeAngle (pyLower s.data))).filter isLowerAlnum⟩

/-- The normalization that the resolution call sites actually apply to a
candidate name: `clean_for_match`, then (inside `find_best_match`)
`.strip()` and `normalize_name`. -/
def applied_norm (s : String) : String :=
  normalize_name (pyStrip (clean_for_match s))

/-- The normalization actually applied to a registry name:
`clean_for_match`, then (inside `find_best_match`) `normalize_name`. -/
def applied_norm_registry (s : String) : String :=
  normalize_name (clean_for_match s)

/-- The rule the applied normalization in fact computes (C2, amended):
lowercase; delete every character outside `[a-z0-9]` (bracket delimiters
die here but bracket contents survive); strip one leading `mr`/`ms`/`dr`
title; then strip leading and trailing digit runs. -/
def amended_norm (s : String) : String :=
  ⟨stripEdge isDigitB (stripTitle ((pyLower s.data).filter isLowerAlnum))⟩

/-- The claimed format: "a number formatted with exactly one digit after
the decimal point
followed by a trailing `'%'`": one or more digits, `'.'`, one digit,
`'%'`. -/
def isAccuracyFormat (s : String) : Bool :=
  match s.data.reverse with
  | '%' :: d :: '.' :: rest => isDigitB d && !rest.isEmpty && rest.all isDigitB
  | _ => false

end HellOCR

namespace HellOCR

set_option maxRecDepth 100000

/-! ## Claims settled by direct evaluation -/

/-- C1: the code drops the reconciled shot statistics.  At the failing
input — a player column whose OCR reads ShotsFired = "10",
ShotsHit = "15" and no usable accuracy — the record returned by
`process_for_ocr` carries `"Shots Hit" = 0`, not the clamped value 10
(the parsed values feed only the local reconciliation variables and are
never stored back into the record), while the derived accuracy is
`"100.0%"` exactly as the claim states. -/
theorem shots_hit_dropped_at_failing_input :
    process_for_ocr
        [⟨some "HeroOne", some "12", some "10", some "15", some "3", none, some "2"⟩] =
      [⟨"HeroOne", "12", "3", 0, 0, "100.0%", 2⟩] ∧ (0 : ℤ) ≠ 10 := by
  constructor
  · decide
  · decide

/-- C5 (counterexample): `clean_ocr_result` on `"78.5%%"` for Accuracy
does not return `"78.5%"` — stripping everything except digits, `'.'` and
`'%'` keeps both percent signs. -/
theorem clean_accuracy_counterexample :
    clean_ocr_result "78.5%%" .accuracy ≠ some "78.5%" := by
  decide

/-- C5 (amended): `clean_ocr_result` on `"78.5%%"` for Accuracy returns
`"78.5%%"`: every character of the input is a digit, `'.'` or `'%'`, so
nothing is stripped. -/
theorem clean_accuracy_at_spec_example :
    clean_ocr_result "78.5%%" .accuracy = some "78.5%%" := by
  decide

/-- C2 (counterexample): the normalization actually applied at the
resolution call sites differs from the authoritative rule.  `"MrBob"`:
the applied rule strips the leading title `mr` (giving `"bob"`), which
the authoritative rule never does; `"<i>Bob"`: the applied rule deletes
only the bracket delimiters and keeps the content (giving `"ibob"`),
while the authoritative rule removes the whole `<i>` group (giving
`"bob"`). -/
theorem applied_norm_ne_authoritative :
    applied_norm "MrBob" = "bob" ∧ authoritative_norm "MrBob" = "mrbob" ∧
      applied_norm "<i>Bob" = "ibob" ∧ authoritative_norm "<i>Bob" = "bob" ∧
      applied_norm "MrBob" ≠ authoritative_norm "MrBob" ∧
      applied_norm_registry "MrBob" ≠ authoritative_norm "MrBob" := by
  refine ⟨by decide, by decide, by decide, by decide, by decide, by decide⟩

/-- C3 (counterexample): with candidate `"abcd"` and registry
`["1abcde", "abc"]`, both entries tie at the maximal fuzzy score 100
(each normalized form contains the candidate or is contained in it), the
threshold 80 is met, yet `find_best_match` returns `"1abcde"` — whose
un-normalized length 6 is *farther* from the length 4 of the candidate than
the tied `"abc"` (distance 2 versus 1).  The stable score sort keeps
first-insertion order; un-normalized length is never consulted. -/
theorem tie_break_counterexample :
    (find_best_match "abcd" ["1abcde", "abc"] 80 3).map (fun p => (p.1, p.2.val)) =
        some ("1abcde", 100) ∧
      (fuzz_max (normalize_name (pyStrip "abcd")) (normalize_name "abc")).val = 100 ∧
      (fuzz_max (normalize_name (pyStrip "abcd")) (normalize_name "1abcde")).val = 100 ∧
      (("1abcde".length : ℤ) - "abcd".length).natAbs = 2 ∧
      (("abc".length : ℤ) - "abcd".length).natAbs = 1 := by
  have h₁ : find_best_match "abcd" ["1abcde", "abc"] 80 3 =
      some ("1abcde", ⟨800, 8⟩) := by decide
  have h₂ : fuzz_max (normalize_name (pyStrip "abcd")) (normalize_name "abc") =
      ⟨600, 6⟩ := by decide
  have h₃ : fuzz_max (normalize_name (pyStrip "abcd")) (normalize_name "1abcde") =
      ⟨800, 8⟩ := by decide
  refine ⟨?_, ?_, ?_, by decide, by decide⟩
  · rw [h₁]; simp [Frac.val]; norm_num
  · rw [h₂]; simp [Frac.val]; norm_num
  · rw [h₃]; simp [Frac.val]; norm_num

/-- C4 (counterexample): for raw candidate `"J0hnSmith"` against registry
`["JohnSmith"]`, the actual path (`clean_ocr_result`, which has no repair
for the digit `'0'`, then the call-site normalization) yields normalized
forms `"j0hnsmith"` and `"johnsmith"`, which are *not* equal, and the
score of the resolver is `800/9 ≈ 88.9`, not the exact-match 100 claimed. -/
theorem j0hnsmith_not_exact :
    clean_ocr_result "J0hnSmith" .name = some "J0hnSmith" ∧
      normalize_name (pyStrip (clean_for_match_opt
          (clean_ocr_result "J0hnSmith" .name))) ≠
        normalize_name (clean_for_match "JohnSmith") ∧
      (find_best_match (clean_for_match_opt (clean_ocr_result "J0hnSmith" .name))
            (["JohnSmith"].map clean_for_match) 50 3).map (fun p => p.2.val) ≠
        some 100 := by
  have h : find_best_match (clean_for_match_opt (clean_ocr_result "J0hnSmith" .name))
      (["JohnSmith"].map clean_for_match) 50 3 = some ("johnsmith", ⟨1600, 18⟩) := by
    decide
  refine ⟨by decide, by decide, ?_⟩
  rw [h]
  simp only [Option.map_some, Option.some.injEq, Frac.val]
  norm_num

/-- C4 (amended): the misread table maps the digits 2–9 but not `'0'`, so
`"J0hnSmith"` survives repair unchanged and its normalized form differs
from the form in the registry; the resolver nonetheless returns `"JohnSmith"` — as
a fuzzy match with score `800/9 ≈ 88.9` (which clears the call-site
threshold `MATCH_SCORE_THRESHOLD = 50`), not as an exact match with
score 100. -/
theorem j0hnsmith_fuzzy_resolution :
    resolve_name "J0hnSmith" ["JohnSmith"] 50 = some "JohnSmith" ∧
      (find_best_match (clean_for_match_opt (clean_ocr_result "J0hnSmith" .name))
            (["JohnSmith"].map clean_for_match) 50 3).map
          (fun p => (p.1, p.2.val)) =
        some ("johnsmith", 800 / 9) ∧ (800 / 9 : ℚ) < 100 := by
  have h : find_best_match (clean_for_match_opt (clean_ocr_result "J0hnSmith" .name))
      (["JohnSmith"].map clean_for_match) 50 3 = some ("johnsmith", ⟨1600, 18⟩) := by
    decide
  refine ⟨by decide, ?_, by norm_num⟩
  rw [h]
  simp only [Option.map_some, Option.some.injEq, Frac.val]
  norm_num

/-- C8 (counterexample): for the degenerate image shape (height 1,
width 1) the fallback scaling collapses the `"P1 Name"` box of the
1920×1080 layout to `(0, 0, 0, 0)`, so `left < right` and `top < bottom`
fail (the produced coordinates are still all ≥ 0). -/
theorem define_regions_degenerate_shape :
    (define_regions (some (1, 1)) 4 460).head? = some ("P1 Name", (0, 0, 0, 0)) ∧
      ¬((0 : ℤ) < 0) := by
  exact ⟨by decide, by decide⟩

/-! ## C9: the Accuracy field is always `"<digits>.<digit>%"` -/

theorem digitChar_digit (n : ℕ) : isDigitB (digitChar n) = true := by
  unfold digitChar
  split <;> decide

theorem natDigitsF_spec (fuel : ℕ) :
    ∀ n, n < fuel →
      natDigitsF fuel n ≠ [] ∧ ∀ c ∈ natDigitsF fuel n, isDigitB c = true := by
  induction fuel with
  | zero => intro n hn; omega
  | succ fuel ih =>
    intro n _
    by_cases h10 : n < 10
    · simp only [natDigitsF, if_pos h10]
      refine ⟨by simp, ?_⟩
      intro c hc
      simp only [List.mem_singleton] at hc
      subst hc
      exact digitChar_digit n
    · have hdiv : n / 10 < fuel := by
        have h1 : n / 10 < n := Nat.div_lt_self (by omega) (by omega)
        omega
      obtain ⟨h₁, h₂⟩ := ih (n / 10) hdiv
      simp only [natDigitsF, if_neg h10]
      refine ⟨by simp, ?_⟩
      intro c hc
      rcases List.mem_append.mp hc with hc | hc
      · exact h₂ c hc
      · simp only [List.mem_singleton] at hc
        subst hc
        exact digitChar_digit _

theorem natRepr_spec (n : ℕ) :
    natRepr n ≠ [] ∧ ∀ c ∈ natRepr n, isDigitB c = true :=
  natDigitsF_spec (n + 1) n (Nat.lt_succ_self n)

theorem isEmpty_eq_false_of_ne_nil {α : Type} {l : List α} (h : l ≠ []) :
    l.isEmpty = false := by
  cases l with
  | nil => exact absurd rfl h
  | cons a l => rfl

theorem isAccuracyFormat_formatAccuracy (f : Frac) :
    isAccuracyFormat (formatAccuracy f) = true := by
  obtain ⟨hne, hdig⟩ := natRepr_spec (tenthsOf f / 10)
  simp only [isAccuracyFormat, formatAccuracy, List.reverse_append,
    List.reverse_cons, List.reverse_nil, List.nil_append, List.cons_append,
    List.append_assoc]
  have hrev : (natRepr (tenthsOf f / 10)).reverse ≠ [] := by
    simpa using hne
  simp only [digitChar_digit, Bool.true_and, Bool.and_eq_true,
    isEmpty_eq_false_of_ne_nil hrev, Bool.not_false]
  simp only [List.all_eq_true]
  intro c hc
  exact hdig c (List.mem_reverse.mp hc)

/-- C9: every player record returned by `process_for_ocr` has its
Accuracy field equal to a number with exactly one digit after the decimal
point followed by a trailing `'%'` — line 215 unconditionally formats the
(non-negative) accuracy value as `f"{accuracy:.1f}%"`. -/
theorem accuracy_always_one_decimal (ps : List RawPlayer) (r : PlayerRecord)
    (hr : r ∈ process_for_ocr ps) : isAccuracyFormat r.accuracy = true := by
  rw [process_for_ocr, List.mem_filterMap] at hr
  obtain ⟨p, _, hp⟩ := hr
  simp only [processPlayer] at hp
  split at hp
  · exact absurd hp (by simp)
  · have : buildRecord p = r := Option.some.inj hp
    subst this
    exact isAccuracyFormat_formatAccuracy _

/-- Witness for C9 at a concrete input. -/
theorem accuracy_always_one_decimal_witness :
    isAccuracyFormat
      (PlayerRecord.mk "HeroOne" "12" "3" 0 0 "100.0%" 2).accuracy = true :=
  accuracy_always_one_decimal
    [⟨some "HeroOne", some "12", some "10", some "15", some "3", none, some "2"⟩]
    ⟨"HeroOne", "12", "3", 0, 0, "100.0%", 2⟩ (by decide)

/-! ## C2: what the applied normalization actually computes -/

theorem isLowerAlnum_toNat {c : Char} (h : isLowerAlnum c = true) :
    (97 ≤ c.toNat ∧ c.toNat ≤ 122) ∨ (48 ≤ c.toNat ∧ c.toNat ≤ 57) := by
  simpa only [isLowerAlnum, Bool.or_eq_true, Bool.and_eq_true,
    decide_eq_true_eq] using h

theorem pyLowerChar_eq_self {c : Char} (h : isLowerAlnum c = true) :
    pyLowerChar c = c := by
  have h' := isLowerAlnum_toNat h
  unfold pyLowerChar
  split
  · next hcond =>
    exfalso
    simp only [Bool.and_eq_true, decide_eq_true_eq] at hcond
    omega
  · rfl

theorem pyIsSpace_eq_false {c : Char} (h : isLowerAlnum c = true) :
    pyIsSpace c = false := by
  have h' := isLowerAlnum_toNat h
  by_contra hsp
  rw [Bool.not_eq_false] at hsp
  simp only [pyIsSpace, Bool.or_eq_true, Nat.beq_eq_true_eq] at hsp
  omega

theorem ne_angle_of_isLowerAlnum {c : Char} (h : isLowerAlnum c = true) :
    c ≠ '<' := by
  intro heq
  subst heq
  exact absurd h (by decide)

theorem beq_underscore_eq_false {c : Char} (h : isLowerAlnum c = true) :
    (c == '_') = false := by
  rw [beq_eq_false_iff_ne]
  intro heq
  subst heq
  exact absurd h (by decide)

theorem dropWhile_eq_self_of_all {p : Char → Bool} {l : List Char}
    (h : ∀ c ∈ l, p c = false) : l.dropWhile p = l := by
  cases l with
  | nil => rfl
  | cons a l => simp [List.dropWhile_cons, h a (by simp)]

theorem map_eq_self_of_all {f : Char → Char} {l : List Char}
    (h : ∀ c ∈ l, f c = c) : l.map f = l := by
  induction l with
  | nil => rfl
  | cons a l ih =>
    simp only [List.map_cons, h a (by simp), List.cons.injEq, true_and]
    exact ih fun c hc => h c (by simp [hc])

theorem removeAngleF_eq_self :
    ∀ (fuel : ℕ) (l : List Char), (∀ c ∈ l, c ≠ '<') →
      removeAngleF fuel l = l := by
  intro fuel
  induction fuel with
  | zero => intro l _; rfl
  | succ fuel ih =>
    intro l h
    cases l with
    | nil => rfl
    | cons c rest =>
      have hc : ¬(c = '<') := h c (by simp)
      simp only [removeAngleF, if_neg hc, List.cons.injEq, true_and]
      exact ih rest fun x hx => h x (by simp [hx])

theorem removeAngle_eq_self {l : List Char} (h : ∀ c ∈ l, c ≠ '<') :
    removeAngle l = l :=
  removeAngleF_eq_self l.length l h

theorem dropWhile_congr_of_all {p q : Char → Bool} :
    ∀ {l : List Char}, (∀ c ∈ l, p c = q c) →
      l.dropWhile p = l.dropWhile q := by
  intro l
  induction l with
  | nil => intro _; rfl
  | cons a l ih =>
    intro h
    simp only [List.dropWhile_cons, h a (by simp)]
    split
    · exact ih fun c hc => h c (by simp [hc])
    · rfl

theorem dropWhile_subset' {p : Char → Bool} {l : List Char} :
    l.dropWhile p ⊆ l :=
  (List.dropWhile_sublist p).subset

theorem stripEdge_subset {p : Char → Bool} {l : List Char} :
    stripEdge p l ⊆ l := by
  intro x hx
  rw [stripEdge, List.mem_reverse] at hx
  have := dropWhile_subset' hx
  rw [List.mem_reverse] at this
  exact dropWhile_subset' this

theorem stripEdge_congr_of_all {p q : Char → Bool} {l : List Char}
    (h : ∀ c ∈ l, p c = q c) : stripEdge p l = stripEdge q l := by
  unfold stripEdge
  rw [dropWhile_congr_of_all h,
    dropWhile_congr_of_all fun c hc =>
      h c (dropWhile_subset' (List.mem_reverse.mp hc))]

theorem pyStripL_eq_self {l : List Char}
    (h : ∀ c ∈ l, pyIsSpace c = false) : pyStripL l = l := by
  unfold pyStripL
  rw [dropWhile_eq_self_of_all h,
    dropWhile_eq_self_of_all fun c hc => h c (List.mem_reverse.mp hc),
    List.reverse_reverse]

theorem stripTitle_subset {l : List Char} : stripTitle l ⊆ l := by
  unfold stripTitle
  split
  · exact List.drop_subset 2 _
  · split
    · exact List.drop_subset 2 _
    · split
      · exact List.drop_subset 3 _
      · split
        · exact List.drop_subset 2 _
        · exact fun _ h => h

theorem filter_eq_self_of_all {p : Char → Bool} {l : List Char}
    (h : ∀ c ∈ l, p c = true) : l.filter p = l := by
  induction l with
  | nil => rfl
  | cons a l ih =>
    simp only [List.filter_cons, h a (by simp), if_pos trivial]
    rw [ih fun c hc => h c (by simp [hc])]

/-- C2 (amended): the normalization actually applied at the resolution
call sites — `clean_for_match`, then `.strip()` (candidate only) and
`normalize_name` inside `find_best_match` — computes, for every input:
lowercase; delete every non-alphanumeric character (so `<`/`>` die but
bracket contents survive); strip one leading `mr`/`ms`/`dr` title
(`mrs` being shadowed by `mr`); then strip leading and trailing digit
runs.  It does not compute the authoritative rule: see
`applied_norm_ne_authoritative`. -/
theorem applied_norm_is_amended (s : String) :
    applied_norm s = amended_norm s ∧ applied_norm_registry s = amended_norm s := by
  have hmem : ∀ c ∈ stripTitle ((pyLower s.data).filter isLowerAlnum),
      isLowerAlnum c = true := by
    intro c hc
    exact (List.mem_filter.mp (stripTitle_subset hc)).2
  have hreg : applied_norm_registry s = amended_norm s := by
    show normalize_name (clean_for_match s) = amended_norm s
    unfold normalize_name clean_for_match amended_norm
    refine congrArg String.mk ?_
    rw [show (String.mk (stripTitle ((pyLower s.data).filter isLowerAlnum))).data =
        stripTitle ((pyLower s.data).filter isLowerAlnum) from rfl]
    rw [show pyLower (stripTitle ((pyLower s.data).filter isLowerAlnum)) =
        stripTitle ((pyLower s.data).filter isLowerAlnum) from
      map_eq_self_of_all fun c hc => pyLowerChar_eq_self (hmem c hc)]
    rw [removeAngle_eq_self fun c hc => ne_angle_of_isLowerAlnum (hmem c hc)]
    rw [stripEdge_congr_of_all (q := isDigitB) fun c hc => by
      simp [isDigUnd, beq_underscore_eq_false (hmem c hc)]]
    exact filter_eq_self_of_all fun c hc =>
      hmem c (stripEdge_subset hc)
  refine ⟨?_, hreg⟩
  show normalize_name (pyStrip (clean_for_match s)) = amended_norm s
  rw [show pyStrip (clean_for_match s) = clean_for_match s from
    congrArg String.mk (pyStripL_eq_self fun c hc =>
      pyIsSpace_eq_false (hmem c hc))]
  exact hreg

/-! ## `find_best_match`: the normalized-name map -/

theorem lookup_insertNorm (m : List (String × String)) (k v k' : String) :
    lookupVal (insertNorm m k v) k' =
      if k' = k then some v else lookupVal m k' := by
  induction m with
  | nil =>
    simp only [insertNorm, lookupVal]
    by_cases h : k = k'
    · subst h; simp
    · rw [if_neg h, if_neg fun hh => h (Eq.symm hh)]
  | cons kv rest ih =>
    obtain ⟨k₀, v₀⟩ := kv
    by_cases h₀ : k₀ = k
    · subst h₀
      simp only [insertNorm, if_pos rfl, lookupVal]
      by_cases h : k₀ = k'
      · subst h; simp
      · rw [if_neg h, if_neg fun hh => h (Eq.symm hh), if_neg h]
    · simp only [insertNorm, if_neg h₀, lookupVal]
      by_cases h : k₀ = k'
      · subst h
        simp [h₀]
      · simp only [if_neg h, ih]

theorem normMap_concat (names : List String) (a : String) :
    normMap (names ++ [a]) = insertNorm (normMap names) (normalize_name a) a := by
  simp [normMap, List.foldl_append]

theorem getLast?_of_ne_nil {α : Type} : ∀ {l : List α}, l ≠ [] →
    ∃ b, l.getLast? = some b := by
  intro l
  induction l with
  | nil => intro h; exact absurd rfl h
  | cons x xs ih =>
    intro _
    cases xs with
    | nil => exact ⟨x, rfl⟩
    | cons y ys =>
      obtain ⟨b, hb⟩ := ih (by simp)
      exact ⟨b, by rw [List.getLast?_cons_cons]; exact hb⟩

/-- Looking up a key in the dict comprehension returns the last registry
name with the given normalized form. -/
theorem lookup_normMap (names : List String) (k : String) :
    lookupVal (normMap names) k =
      (names.filter fun n => normalize_name n == k).getLast? := by
  induction names using List.reverseRecOn with
  | nil => rfl
  | append_singleton l a ih =>
    rw [normMap_concat, lookup_insertNorm, List.filter_append]
    by_cases h : k = normalize_name a
    · rw [if_pos h]
      have hb : (normalize_name a == k) = true := beq_iff_eq.mpr (Eq.symm h)
      have : (List.filter (fun n => normalize_name n == k) [a]) = [a] := by
        simp [List.filter_cons, hb]
      rw [this, List.getLast?_concat]
    · rw [if_neg h]
      have hb : (normalize_name a == k) = false :=
        beq_eq_false_iff_ne.mpr fun hh => h (Eq.symm hh)
      have : (List.filter (fun n => normalize_name n == k) [a]) = [] := by
        simp [List.filter_cons, hb]
      rw [this, List.append_nil, ih]

theorem mem_of_getLast?_eq {α : Type} :
    ∀ {l : List α} {v : α}, l.getLast? = some v → v ∈ l := by
  intro l
  induction l with
  | nil => intro v h; cases h
  | cons x xs ih =>
    intro v h
    cases xs with
    | nil =>
      rw [List.getLast?_singleton] at h
      obtain rfl := Option.some.inj h
      exact List.mem_cons_self _ _
    | cons y ys =>
      rw [List.getLast?_cons_cons] at h
      exact List.mem_cons_of_mem _ (ih h)

/-- A value looked up in the dict comprehension is a registry name whose
normalized form is the key looked up. -/
theorem lookup_normMap_mem {names : List String} {k v : String}
    (h : lookupVal (normMap names) k = some v) :
    v ∈ names ∧ normalize_name v = k := by
  rw [lookup_normMap] at h
  obtain ⟨hmem, hbeq⟩ := List.mem_filter.mp (mem_of_getLast?_eq h)
  exact ⟨hmem, beq_iff_eq.mp hbeq⟩

theorem lookup_normMap_isSome {names : List String} {n : String}
    (h : n ∈ names) :
    ∃ v, lookupVal (normMap names) (normalize_name n) = some v := by
  rw [lookup_normMap]
  have : n ∈ names.filter fun x => normalize_name x == normalize_name n :=
    List.mem_filter.mpr ⟨h, beq_iff_eq.mpr rfl⟩
  exact getLast?_of_ne_nil (List.ne_nil_of_mem this)

theorem firstMax_mem : ∀ {l : List (String × Frac)} {p : String × Frac},
    firstMax l = some p → p ∈ l := by
  intro l
  induction l with
  | nil => intro p h; cases h
  | cons x xs ih =>
    intro p h
    simp only [firstMax] at h
    cases hxs : firstMax xs with
    | none =>
      simp only [hxs] at h
      obtain rfl := Option.some.inj h
      exact List.mem_cons_self _ _
    | some y =>
      simp only [hxs] at h
      by_cases hlt : x.2.flt y.2 = true
      · rw [if_pos hlt] at h
        obtain rfl := Option.some.inj h
        exact List.mem_cons_of_mem _ (ih hxs)
      · rw [if_neg hlt] at h
        obtain rfl := Option.some.inj h
        exact List.mem_cons_self _ _

/-- Every successful return of `find_best_match` is a value of the
normalized-name map at the key equal to its own normalized form. -/
theorem find_best_match_lookup {ocr : String} {names : List String}
    {θ μ : ℕ} {m : String} {s : Frac}
    (h : find_best_match ocr names θ μ = some (m, s)) :
    lookupVal (normMap names) (normalize_name m) = some m ∧ m ∈ names := by
  unfold find_best_match at h
  split at h
  · cases h
  · split at h
    · next n hn =>
      cases hl : lookupVal (normMap names) n with
      | none => rw [hl] at h; cases h
      | some v =>
        rw [hl] at h
        have hv : v = m := congrArg Prod.fst (Option.some.inj h)
        subst hv
        obtain ⟨hmem, hnorm⟩ := lookup_normMap_mem hl
        exact ⟨hnorm ▸ hl, hmem⟩
    · split at h
      · cases h
      · have hp := firstMax_mem h
        rw [fuzzyPool, List.mem_filterMap] at hp
        obtain ⟨q, _, hq⟩ := hp
        cases hl : lookupVal (normMap names) q.1 with
        | none => rw [hl] at hq; cases hq
        | some v =>
          rw [hl] at hq
          have hv : v = m := congrArg Prod.fst (Option.some.inj hq)
          subst hv
          obtain ⟨hmem, hnorm⟩ := lookup_normMap_mem hl
          exact ⟨hnorm ▸ hl, hmem⟩

theorem getLast?_cons_of_ne_nil {α : Type} {t : List α} (a : α) (h : t ≠ []) :
    (a :: t).getLast? = t.getLast? := by
  cases t with
  | nil => exact absurd rfl h
  | cons b l => exact List.getLast?_cons_cons

/-- If `l.get j` satisfies `p` and nothing after index `j` does, then the
filtered list ends exactly at `l.get j`. -/
theorem filter_getLast?_of_last {p : String → Bool} :
    ∀ {l : List String} {j : ℕ} (hj : j < l.length),
      p (l.get ⟨j, hj⟩) = true →
      (∀ k (hk : k < l.length), j < k → p (l.get ⟨k, hk⟩) = false) →
      (l.filter p).getLast? = some (l.get ⟨j, hj⟩) := by
  intro l
  induction l with
  | nil =>
    intro j hj
    simp at hj
  | cons a l ih =>
    intro j hj hpj hlast
    cases j with
    | zero =>
      have hfl : l.filter p = [] := by
        rw [List.filter_eq_nil_iff]
        intro x hx
        obtain ⟨i, hxi⟩ := List.mem_iff_get.mp hx
        rw [Bool.not_eq_true, ← hxi]
        exact hlast (i.1 + 1) (by simpa using i.isLt) (Nat.succ_pos i.1)
      have hpa : p a = true := hpj
      rw [List.filter_cons, if_pos (by rw [hpa]), hfl]
      rfl
    | succ j =>
      have hj' : j < l.length := by simpa using hj
      have hpj' : p (l.get ⟨j, hj'⟩) = true := hpj
      have hlast' : ∀ k (hk : k < l.length), j < k →
          p (l.get ⟨k, hk⟩) = false := fun k hk hjk =>
        hlast (k + 1) (by simpa using hk) (by omega)
      have ihres := ih hj' hpj' hlast'
      have hne : l.filter p ≠ [] := by
        intro hemp
        rw [hemp] at ihres
        cases ihres
      rw [List.filter_cons]
      cases hpa : p a with
      | true =>
        rw [if_pos rfl, getLast?_cons_of_ne_nil _ hne, ihres]
        rfl
      | false =>
        rw [if_neg Bool.false_ne_true, ihres]
        rfl

/-- C10: when two registry names have the same normalized form, only the
later (last) one is returnable: the normalized-name dict comprehension
keeps the last value for a repeated key, and every result of
`find_best_match` is read out of that dict. -/
theorem shadowed_registry_entry (ocr : String) (names : List String)
    (θ μ i j : ℕ) (m : String) (s : Frac)
    (hi : i < names.length) (hj : j < names.length) (hij : i < j)
    (hnorm : normalize_name (names.get ⟨i, hi⟩) =
      normalize_name (names.get ⟨j, hj⟩))
    (hlast : ∀ k (hk : k < names.length), j < k →
      normalize_name (names.get ⟨k, hk⟩) ≠ normalize_name (names.get ⟨i, hi⟩))
    (hfind : find_best_match ocr names θ μ = some (m, s))
    (hm : normalize_name m = normalize_name (names.get ⟨i, hi⟩)) :
    m = names.get ⟨j, hj⟩ := by
  obtain ⟨hlook, _⟩ := find_best_match_lookup hfind
  rw [hm, lookup_normMap] at hlook
  rw [filter_getLast?_of_last
      (p := fun n => normalize_name n == normalize_name (names.get ⟨i, hi⟩)) hj
      (beq_iff_eq.mpr (Eq.symm hnorm))
      (fun k hk hjk => beq_eq_false_iff_ne.mpr (hlast k hk hjk))] at hlook
  exact Eq.symm (Option.some.inj hlook)

/-- Witness for C10: registry `["1abc", "2abc"]`, both normalizing to
`"abc"`; the resolver returns the later entry `"2abc"`. -/
theorem shadowed_registry_entry_witness :
    "2abc" = ["1abc", "2abc"].get ⟨1, by decide⟩ :=
  shadowed_registry_entry "abc" ["1abc", "2abc"] 80 3 0 1 "2abc" score100
    (by decide) (by decide) (by decide) (by decide)
    (fun k hk h1k => absurd h1k (by simp at hk; omega))
    (by decide) (by decide)

theorem mem_keys_of_lookup : ∀ {m : List (String × String)} {k v : String},
    lookupVal m k = some v → k ∈ m.map Prod.fst := by
  intro m
  induction m with
  | nil => intro k v h; cases h
  | cons kv rest ih =>
    intro k v h
    obtain ⟨k₀, v₀⟩ := kv
    simp only [lookupVal] at h
    by_cases h₀ : k₀ = k
    · subst h₀; simp
    · rw [if_neg h₀] at h
      exact List.mem_cons_of_mem _ (ih h)

theorem lookup_isSome_of_mem_keys : ∀ {m : List (String × String)} {k : String},
    k ∈ m.map Prod.fst → ∃ v, lookupVal m k = some v := by
  intro m
  induction m with
  | nil => intro k h; cases h
  | cons kv rest ih =>
    intro k h
    obtain ⟨k₀, v₀⟩ := kv
    by_cases h₀ : k₀ = k
    · exact ⟨v₀, by simp [lookupVal, h₀]⟩
    · obtain ⟨v, hv⟩ := ih (by
        rcases List.mem_cons.mp h with h | h
        · exact absurd (Eq.symm h) h₀
        · exact h)
      exact ⟨v, by simp [lookupVal, if_neg h₀, hv]⟩

theorem lenFilter_self (s : String) : lenFilter s s = true := by
  simp only [lenFilter, Bool.and_eq_true, Bool.or_eq_true, decide_eq_true_eq,
    beq_iff_eq]
  omega

/-- C6 (amended): for every *non-empty* candidate whose normalized form is
shorter than `min_len`, `find_best_match` returns a match iff some
registry name has the same normalized form; any such match is returned
with score 100 and is itself a registry name with that normalized form.
Fuzzy scoring is never reached below `min_len`.  (For the empty-string
candidate the claim fails: see `short_candidate_counterexample`.) -/
theorem short_candidate_exact_only (ocr : String) (names : List String)
    (θ μ : ℕ) (h0 : ocr ≠ "")
    (hshort : (normalize_name (pyStrip ocr)).length < μ) :
    (∀ m s, find_best_match ocr names θ μ = some (m, s) →
      s = score100 ∧ m ∈ names ∧
        normalize_name m = normalize_name (pyStrip ocr)) ∧
    ((find_best_match ocr names θ μ).isSome = true ↔
      ∃ n ∈ names, normalize_name n = normalize_name (pyStrip ocr)) := by
  have hfwd : ∀ m s, find_best_match ocr names θ μ = some (m, s) →
      s = score100 ∧ m ∈ names ∧
        normalize_name m = normalize_name (pyStrip ocr) := by
    intro m s h
    by_cases hg : ocr = "" ∨ names = []
    · rw [find_best_match, if_pos hg] at h
      cases h
    · cases hq : (filteredKeys ocr names).find?
          (fun n => n == normalize_name (pyStrip ocr)) with
      | none =>
        rw [find_best_match, if_neg hg] at h
        simp only [hq] at h
        rw [if_pos hshort] at h
        cases h
      | some n =>
        rw [find_best_match, if_neg hg] at h
        simp only [hq] at h
        cases hl : lookupVal (normMap names) n with
        | none => rw [hl] at h; cases h
        | some v =>
          rw [hl] at h
          have h' : (v, score100) = (m, s) := Option.some.inj h
          have hv : v = m := congrArg Prod.fst h'
          have hs : score100 = s := congrArg Prod.snd h'
          subst hv
          obtain ⟨hmem, hnorm⟩ := lookup_normMap_mem hl
          have hp : (fun x => x == normalize_name (pyStrip ocr)) n = true :=
            List.find?_some (p := fun x => x == normalize_name (pyStrip ocr)) hq
          have hn' : n = normalize_name (pyStrip ocr) := beq_iff_eq.mp hp
          exact ⟨Eq.symm hs, hmem, by rw [hnorm, hn']⟩
  refine ⟨hfwd, ?_, ?_⟩
  · intro hs
    obtain ⟨⟨m, s⟩, hms⟩ := Option.isSome_iff_exists.mp hs
    obtain ⟨_, hmem, hnorm⟩ := hfwd m s hms
    exact ⟨m, hmem, hnorm⟩
  · rintro ⟨n, hn, hnn⟩
    have hne : names ≠ [] := List.ne_nil_of_mem hn
    have hkeys : normalize_name (pyStrip ocr) ∈ (normMap names).map Prod.fst := by
      obtain ⟨v, hv⟩ := lookup_normMap_isSome hn
      rw [hnn] at hv
      exact mem_keys_of_lookup hv
    have hfk : normalize_name (pyStrip ocr) ∈ filteredKeys ocr names :=
      List.mem_filter.mpr ⟨hkeys, lenFilter_self _⟩
    cases hq : (filteredKeys ocr names).find?
        (fun n => n == normalize_name (pyStrip ocr)) with
    | none =>
      exfalso
      have := List.find?_eq_none.mp hq _ hfk
      simp at this
    | some n' =>
      have hnkeys : n' ∈ (normMap names).map Prod.fst :=
        List.mem_of_mem_filter (List.mem_of_find?_eq_some hq)
      obtain ⟨v, hv⟩ := lookup_isSome_of_mem_keys hnkeys
      rw [find_best_match, if_neg (by simp [h0, hne])]
      simp only [hq, hv]
      rfl

/-- C6 (counterexample to the claim as stated, at the empty candidate):
with candidate `""`, registry `["123"]` and `min_len = 3`, that of the candidate
normalized form `""` equals the normalized form of the registry entry
(`"123"` normalizes to `""` — digits are stripped), yet `find_best_match`
returns no match because of its initial falsy-input guard. -/
theorem short_candidate_counterexample :
    find_best_match "" ["123"] 80 3 = none ∧
      normalize_name "123" = normalize_name (pyStrip "") ∧
      (normalize_name (pyStrip "")).length < 3 := by
  exact ⟨by decide, by decide, by decide⟩

/-- Witness for C6 at a concrete input. -/
theorem short_candidate_exact_only_witness :
    (find_best_match "Al" ["Al"] 80 3).isSome = true :=
  (short_candidate_exact_only "Al" ["Al"] 80 3 (by decide) (by decide)).2.mpr
    ⟨"Al", by decide, by decide⟩

/-! ## C3: ties are resolved by position, not by length -/

theorem Frac.fle_refl (a : Frac) : a.fle a = true := by
  simp [Frac.fle]

theorem Frac.fle_of_flt {a b : Frac} (h : a.flt b = true) : a.fle b = true := by
  simp only [Frac.flt, decide_eq_true_eq] at h
  simp only [Frac.fle, decide_eq_true_eq]
  exact Nat.le_of_lt h

theorem Frac.fle_of_not_flt {a b : Frac} (h : ¬a.flt b = true) :
    b.fle a = true := by
  simp only [Frac.flt, decide_eq_true_eq] at h
  simp only [Frac.fle, decide_eq_true_eq]
  exact Nat.le_of_not_lt h

theorem Frac.fle_trans {a b c : Frac} (hb : 0 < b.den)
    (h₁ : a.fle b = true) (h₂ : b.fle c = true) : a.fle c = true := by
  simp only [Frac.fle, decide_eq_true_eq] at h₁ h₂ ⊢
  have H : a.num * c.den * b.den ≤ c.num * a.den * b.den := by
    calc a.num * c.den * b.den = a.num * b.den * c.den := by ring
    _ ≤ b.num * a.den * c.den := Nat.mul_le_mul_right c.den h₁
    _ = b.num * c.den * a.den := by ring
    _ ≤ c.num * b.den * a.den := Nat.mul_le_mul_right a.den h₂
    _ = c.num * a.den * b.den := by ring
  exact Nat.le_of_mul_le_mul_right H hb

theorem indelScore_den_pos (a b : List Char) : 0 < (indelScore a b).den := by
  unfold indelScore
  split
  · exact Nat.one_pos
  · next h => simpa using Nat.pos_of_ne_zero h

theorem foldl_fracMax_den_pos (f : List Char → Frac)
    (hf : ∀ w, 0 < (f w).den) :
    ∀ (l : List (List Char)) (acc : Frac), 0 < acc.den →
      0 < (l.foldl (fun acc w => if acc.flt (f w) then f w else acc) acc).den := by
  intro l
  induction l with
  | nil => intro acc hacc; exact hacc
  | cons w ws ih =>
    intro acc hacc
    simp only [List.foldl_cons]
    split
    · exact ih _ (hf w)
    · exact ih _ hacc

theorem fracMaxOver_den_pos (l : List (List Char)) (f : List Char → Frac)
    (hf : ∀ w, 0 < (f w).den) : 0 < (fracMaxOver l f).den :=
  foldl_fracMax_den_pos f hf l ⟨0, 1⟩ Nat.one_pos

theorem bestWindowScore_den_pos (a b : List Char) :
    0 < (bestWindowScore a b).den :=
  fracMaxOver_den_pos _ _ (fun w => indelScore_den_pos a w)

theorem fuzzWindowScore_den_pos (a b : List Char) :
    0 < (fuzzWindowScore a b).den := by
  unfold fuzzWindowScore
  split
  · exact bestWindowScore_den_pos _ _
  · split
    · exact bestWindowScore_den_pos _ _
    · split
      · exact bestWindowScore_den_pos _ _
      · exact bestWindowScore_den_pos _ _

theorem fuzz_max_den_pos (a b : String) : 0 < (fuzz_max a b).den := by
  unfold fuzz_max
  split
  · exact indelScore_den_pos _ _
  · exact fuzzWindowScore_den_pos _ _

theorem fuzzyPool_den_pos (ocr : String) (names : List String) (θ : ℕ) :
    ∀ q ∈ fuzzyPool ocr names θ, 0 < q.2.den := by
  intro q hq
  rw [fuzzyPool, List.mem_filterMap] at hq
  obtain ⟨p, hp, hpq⟩ := hq
  cases hl : lookupVal (normMap names) p.1 with
  | none => rw [hl] at hpq; cases hpq
  | some v =>
    rw [hl] at hpq
    have h' : (v, p.2) = q := Option.some.inj hpq
    have hq2 : q.2 = p.2 := by rw [← h']
    obtain ⟨hp', _⟩ := List.mem_filter.mp hp
    obtain ⟨n, _, hn⟩ := List.mem_map.mp hp'
    have : p.2 = fuzz_max (normalize_name (pyStrip ocr)) n := by rw [← hn]
    rw [hq2, this]
    exact fuzz_max_den_pos _ _

theorem firstMax_eq_none : ∀ {l : List (String × Frac)},
    firstMax l = none → l = [] := by
  intro l h
  cases l with
  | nil => rfl
  | cons x xs =>
    exfalso
    simp only [firstMax] at h
    cases hxs : firstMax xs with
    | none =>
      simp only [hxs] at h
      exact Option.noConfusion h
    | some y =>
      simp only [hxs] at h
      by_cases hlt : x.2.flt y.2 = true
      · rw [if_pos hlt] at h; cases h
      · rw [if_neg hlt] at h; cases h

/-- The selection `firstMax` returns the first element attaining the
maximal score. -/
theorem firstMax_first_argmax :
    ∀ (l : List (String × Frac)), (∀ q ∈ l, 0 < q.2.den) → l ≠ [] →
      ∃ (i : ℕ) (hi : i < l.length),
        firstMax l = some (l.get ⟨i, hi⟩) ∧
        (∀ q ∈ l, q.2.fle (l.get ⟨i, hi⟩).2 = true) ∧
        ∀ k (hk : k < l.length), k < i →
          ((l.get ⟨k, hk⟩).2.flt (l.get ⟨i, hi⟩).2) = true := by
  intro l
  induction l with
  | nil => intro _ h; exact absurd rfl h
  | cons x xs ih =>
    intro hden _
    cases hxs : firstMax xs with
    | none =>
      have hnil : xs = [] := firstMax_eq_none hxs
      subst hnil
      refine ⟨0, by simp, ?_, ?_, ?_⟩
      · simp [firstMax]
      · intro q hq
        rw [List.mem_singleton.mp hq]
        exact Frac.fle_refl _
      · intro k hk hk0
        omega
    | some y =>
      have hxsne : xs ≠ [] := by
        intro hemp
        rw [hemp] at hxs
        cases hxs
      obtain ⟨j, hj, hjeq, hjmax, hjstrict⟩ :=
        ih (fun q hq => hden q (List.mem_cons_of_mem _ hq)) hxsne
      have hy : y = xs.get ⟨j, hj⟩ := by
        rw [hxs] at hjeq
        exact Option.some.inj hjeq
      subst hy
      by_cases hlt : x.2.flt (xs.get ⟨j, hj⟩).2 = true
      · refine ⟨j + 1, by simpa using hj, ?_, ?_, ?_⟩
        · simp only [firstMax, hxs, if_pos hlt]
          rfl
        · intro q hq
          rcases List.mem_cons.mp hq with rfl | hq
          · exact Frac.fle_of_flt hlt
          · exact hjmax q hq
        · intro k hk hkj
          cases k with
          | zero => exact hlt
          | succ k => exact hjstrict k (by simpa using hk) (by omega)
      · refine ⟨0, by simp, ?_, ?_, ?_⟩
        · simp only [firstMax, hxs, if_neg hlt]
          rfl
        · intro q hq
          rcases List.mem_cons.mp hq with rfl | hq
          · exact Frac.fle_refl _
          · exact Frac.fle_trans
              (hden _ (List.mem_cons_of_mem _ (List.get_mem xs j hj)))
              (hjmax q hq) (Frac.fle_of_not_flt hlt)
        · intro k hk hk0
          omega

/-- C3 (amended): when `find_best_match` reaches fuzzy scoring (no exact
match, candidate long enough, non-empty pool), it returns the *first*
entry of the score pool that attains the maximal score — every pool entry
scores no higher, and every entry before the returned one scores strictly
lower.  The pool order is the first-insertion order of the normalized-name
map, so ties are broken by registry position; the un-normalized length
never enters the selection. -/
theorem fuzzy_tie_broken_by_position (ocr : String) (names : List String)
    (θ μ : ℕ) (h0 : ocr ≠ "") (h1 : names ≠ [])
    (hex : (filteredKeys ocr names).find?
        (fun n => n == normalize_name (pyStrip ocr)) = none)
    (hlen : μ ≤ (normalize_name (pyStrip ocr)).length)
    (hpool : fuzzyPool ocr names θ ≠ []) :
    ∃ (i : ℕ) (hi : i < (fuzzyPool ocr names θ).length),
      find_best_match ocr names θ μ =
        some ((fuzzyPool ocr names θ).get ⟨i, hi⟩) ∧
      (∀ q ∈ fuzzyPool ocr names θ,
        q.2.fle ((fuzzyPool ocr names θ).get ⟨i, hi⟩).2 = true) ∧
      ∀ k (hk : k < (fuzzyPool ocr names θ).length), k < i →
        ((fuzzyPool ocr names θ).get ⟨k, hk⟩).2.flt
          ((fuzzyPool ocr names θ).get ⟨i, hi⟩).2 = true := by
  obtain ⟨i, hi, heq, hmax, hstrict⟩ :=
    firstMax_first_argmax (fuzzyPool ocr names θ)
      (fuzzyPool_den_pos ocr names θ) hpool
  refine ⟨i, hi, ?_, hmax, hstrict⟩
  rw [find_best_match, if_neg (by simp [h0, h1])]
  simp only [hex, if_neg (Nat.not_lt.mpr hlen)]
  exact heq

/-- Witness for C3 (amended) at the tie of `tie_break_counterexample`. -/
theorem fuzzy_tie_broken_by_position_witness :
    ∃ (i : ℕ) (hi : i < (fuzzyPool "abcd" ["1abcde", "abc"] 80).length),
      find_best_match "abcd" ["1abcde", "abc"] 80 3 =
        some ((fuzzyPool "abcd" ["1abcde", "abc"] 80).get ⟨i, hi⟩) ∧
      (∀ q ∈ fuzzyPool "abcd" ["1abcde", "abc"] 80,
        q.2.fle ((fuzzyPool "abcd" ["1abcde", "abc"] 80).get ⟨i, hi⟩).2 = true) ∧
      ∀ k (hk : k < (fuzzyPool "abcd" ["1abcde", "abc"] 80).length), k < i →
        ((fuzzyPool "abcd" ["1abcde", "abc"] 80).get ⟨k, hk⟩).2.flt
          ((fuzzyPool "abcd" ["1abcde", "abc"] 80).get ⟨i, hi⟩).2 = true :=
  fuzzy_tie_broken_by_position "abcd" ["1abcde", "abc"] 80 3
    (by decide) (by decide) (by decide) (by decide) (by decide)

/-! ## C7: the two-record minimum of the `extract` pipeline -/

theorem resolve_name_mem {name : String} {dbNames : List String} {θ : ℕ}
    {r : String} (h : resolve_name name dbNames θ = some r) : r ∈ dbNames := by
  unfold resolve_name at h
  split at h
  · cases h
  · cases hf : find_best_match (clean_for_match_opt (clean_ocr_result name .name))
        (dbNames.map clean_for_match) θ 3 with
    | none =>
      simp only [hf] at h
      exact Option.noConfusion h
    | some p =>
      obtain ⟨m, s⟩ := p
      simp only [hf] at h
      split at h
      · have hr : dbNames.getD ((dbNames.map clean_for_match).indexOf m) "" = r :=
          Option.some.inj h
        have hmem : m ∈ dbNames.map clean_for_match :=
          (find_best_match_lookup hf).2
        have hidx : (dbNames.map clean_for_match).indexOf m <
            (dbNames.map clean_for_match).length :=
          List.indexOf_lt_length.mpr hmem
        rw [List.length_map] at hidx
        rw [List.getD_eq_getElem dbNames "" hidx] at hr
        rw [← hr]
        exact List.getElem_mem hidx
      · cases h

theorem resolveAll_mem {players : List PlayerRecord} {dbNames : List String}
    {θ : ℕ} {q : PlayerRecord × String}
    (hq : q ∈ resolveAll players dbNames θ) : q.2 ∈ dbNames := by
  rw [resolveAll, List.mem_filterMap] at hq
  obtain ⟨x, hx, hmatch⟩ := hq
  cases hr : x.2 with
  | none =>
    simp only [hr] at hmatch
    exact Option.noConfusion hmatch
  | some n =>
    simp only [hr] at hmatch
    split at hmatch
    · cases hmatch
    · obtain rfl := Option.some.inj hmatch
      obtain ⟨p, _, hp⟩ := List.mem_map.mp hx
      have hx2 : resolve_name p.player_name dbNames θ = some n := by
        have : x.2 = resolve_name p.player_name dbNames θ := by rw [← hp]
        rw [← this, hr]
      exact resolve_name_mem hx2

/-- C7: the `extract` tail reports an explicit failure exactly when fewer
than 2 records survive the junk filter or fewer than 2 survive identity
resolution, and otherwise hands at least 2 registry-resolved records to
the confirmation step (each resolved name is a registry entry). -/
theorem extract_two_record_minimum (players : List PlayerRecord)
    (dbNames : List String) (θ : ℕ) :
    (∀ l, extractStage players dbNames θ = .ok l →
      2 ≤ l.length ∧ ∀ q ∈ l, q.2 ∈ dbNames) ∧
    ((∃ f, extractStage players dbNames θ = .error f) ↔
      (junkFilter players).length < 2 ∨
        (resolveAll (junkFilter players) dbNames θ).length < 2) := by
  by_cases h1 : (junkFilter players).length < 2
  · constructor
    · intro l hl
      rw [extractStage, if_pos h1] at hl
      cases hl
    · constructor
      · intro _; exact Or.inl h1
      · intro _
        exact ⟨.tooFewValidNames, by rw [extractStage, if_pos h1]⟩
  · by_cases h2 : (resolveAll (junkFilter players) dbNames θ).length < 2
    · constructor
      · intro l hl
        rw [extractStage, if_neg h1] at hl
        simp only [if_pos h2] at hl
        cases hl
      · constructor
        · intro _; exact Or.inr h2
        · intro _
          refine ⟨.tooFewRegistered, ?_⟩
          rw [extractStage, if_neg h1]
          simp only [if_pos h2]
    · constructor
      · intro l hl
        rw [extractStage, if_neg h1] at hl
        simp only [if_neg h2] at hl
        obtain rfl := Except.ok.inj hl.symm
        exact ⟨Nat.le_of_not_lt h2, fun q hq => resolveAll_mem hq⟩
      · constructor
        · rintro ⟨f, hf⟩
          rw [extractStage, if_neg h1] at hf
          simp only [if_neg h2] at hf
          cases hf
        · intro h
          exact absurd h (by simp [h1, h2])

/-- Witness for C7 at a concrete input: two junk-free records that both
resolve against the registry, so the pipeline succeeds with 2 records. -/
theorem extract_two_record_minimum_witness :
    2 ≤ ([(PlayerRecord.mk "HeroOne" "12" "3" 0 0 "100.0%" 2, "HeroOne"),
          (PlayerRecord.mk "JohnSmith" "5" "1" 0 0 "78.5%" 0, "JohnSmith")] :
        List (PlayerRecord × String)).length ∧
      ∀ q ∈ ([(PlayerRecord.mk "HeroOne" "12" "3" 0 0 "100.0%" 2, "HeroOne"),
          (PlayerRecord.mk "JohnSmith" "5" "1" 0 0 "78.5%" 0, "JohnSmith")] :
        List (PlayerRecord × String)), q.2 ∈ ["HeroOne", "JohnSmith"] :=
  (extract_two_record_minimum
      [⟨"HeroOne", "12", "3", 0, 0, "100.0%", 2⟩,
       ⟨"JohnSmith", "5", "1", 0, 0, "78.5%", 0⟩]
      ["HeroOne", "JohnSmith"] 50).1
    [(⟨"HeroOne", "12", "3", 0, 0, "100.0%", 2⟩, "HeroOne"),
     (⟨"JohnSmith", "5", "1", 0, 0, "78.5%", 0⟩, "JohnSmith")]
    (by rfl)

/-! ## C8: what holds of every produced box -/

theorem adjust_region_bounds (region : ℤ × ℤ × ℤ × ℤ) (off : ℤ × ℤ)
    (pi : ℕ) (po : ℤ) (hlr : region.1 ≤ region.2.2.1)
    (htb : region.2.1 ≤ region.2.2.2) :
    0 ≤ (adjust_region region off pi po).1 ∧
      0 ≤ (adjust_region region off pi po).2.1 ∧
      0 ≤ (adjust_region region off pi po).2.2.1 ∧
      0 ≤ (adjust_region region off pi po).2.2.2 ∧
      (adjust_region region off pi po).1 ≤ (adjust_region region off pi po).2.2.1 ∧
      (adjust_region region off pi po).2.1 ≤ (adjust_region region off pi po).2.2.2 := by
  refine ⟨le_max_left 0 _, le_max_left 0 _, le_max_left 0 _, le_max_left 0 _,
    ?_, ?_⟩
  · exact max_le_max le_rfl
      (add_le_add_right (add_le_add_right hlr off.1) _)
  · exact max_le_max le_rfl htb

theorem scaleCoord_nonneg {x : ℤ} (hx : 0 ≤ x) (w base : ℕ) :
    0 ≤ scaleCoord x w base :=
  Int.ediv_nonneg (mul_nonneg hx (Int.ofNat_nonneg w)) (Int.ofNat_nonneg base)

theorem scaleCoord_mono {x y : ℤ} (hxy : x ≤ y) (w base : ℕ) :
    scaleCoord x w base ≤ scaleCoord y w base := by
  unfold scaleCoord
  rcases Nat.eq_zero_or_pos base with hb | hb
  · subst hb
    simp only [Nat.cast_zero, Int.ediv_zero]
    exact le_refl 0

  · exact Int.ediv_le_ediv (by exact_mod_cast hb)
      (mul_le_mul_of_nonneg_right hxy (Int.ofNat_nonneg w))

/-- Both base tables have `left ≤ right` and `top ≤ bottom` on every box,
whichever layout is chosen. -/
theorem chosenConfig_table_bounds (shape : Option (ℕ × ℕ)) (off : ℤ) :
    ∀ kv ∈ (chosenConfig shape off).1,
      kv.2.1 ≤ kv.2.2.2.1 ∧ kv.2.2.1 ≤ kv.2.2.2.2 := by
  have h1280 : ∀ kv ∈ regions1280,
      kv.2.1 ≤ kv.2.2.2.1 ∧ kv.2.2.1 ≤ kv.2.2.2.2 := by decide
  have h1920 : ∀ kv ∈ regions1920,
      kv.2.1 ≤ kv.2.2.2.1 ∧ kv.2.2.1 ≤ kv.2.2.2.2 := by decide
  cases shape with
  | none => exact h1920
  | some p =>
    obtain ⟨hh, ww⟩ := p
    simp only [chosenConfig]
    split
    · exact h1280
    · split
      · exact h1920
      · exact h1920

/-- C8 (amended): for every image shape (including the degenerate ones),
every configured player index and every field, the box produced by
`define_regions` has all four coordinates ≥ 0, `left ≤ right` and
`top ≤ bottom`.  The strict inequalities of the claim fail for degenerate
shapes (see `define_regions_degenerate_shape`), where truncation
collapses boxes to zero width/height. -/
theorem define_regions_box_bounds (shape : Option (ℕ × ℕ)) (numPlayers : ℕ)
    (off : ℤ) (lbl : String) (b : ℤ × ℤ × ℤ × ℤ)
    (hmem : (lbl, b) ∈ define_regions shape numPlayers off) :
    0 ≤ b.1 ∧ 0 ≤ b.2.1 ∧ 0 ≤ b.2.2.1 ∧ 0 ≤ b.2.2.2 ∧
      b.1 ≤ b.2.2.1 ∧ b.2.1 ≤ b.2.2.2 := by
  rw [define_regions, List.mem_flatMap] at hmem
  obtain ⟨pi, _, hmem⟩ := hmem
  rw [List.mem_map] at hmem
  obtain ⟨kv, hkv, heq⟩ := hmem
  obtain ⟨hlr, htb⟩ := chosenConfig_table_bounds shape off kv hkv
  have hb : b = scaleBox
      (adjust_region kv.2 (0, 0) pi (chosenConfig shape off).2.1)
      (chosenConfig shape off).2.2.2.2.1 (chosenConfig shape off).2.2.2.2.2
      (chosenConfig shape off).2.2.1 (chosenConfig shape off).2.2.2.1 :=
    (congrArg Prod.snd heq).symm
  obtain ⟨h1, h2, h3, h4, h5, h6⟩ :=
    adjust_region_bounds kv.2 (0, 0) pi (chosenConfig shape off).2.1 hlr htb
  subst hb
  exact ⟨scaleCoord_nonneg h1 _ _, scaleCoord_nonneg h2 _ _,
    scaleCoord_nonneg h3 _ _, scaleCoord_nonneg h4 _ _,
    scaleCoord_mono h5 _ _, scaleCoord_mono h6 _ _⟩

/-- Witness for C8 (amended) at a concrete shape and box. -/
theorem define_regions_box_bounds_witness :
    0 ≤ (87 : ℤ) ∧ 0 ≤ (133 : ℤ) ∧ 0 ≤ (262 : ℤ) ∧ 0 ≤ (152 : ℤ) ∧
      (87 : ℤ) ≤ 262 ∧ (133 : ℤ) ≤ 152 :=
  define_regions_box_bounds (some (800, 1280)) 2 460 "P1 Name"
    (87, 133, 262, 152) (by decide)

end HellOCR
